import Mathlib

/- Shallow embedding of the core retrieval-assembly-and-ranking logic of
src/backend/recommender.py (CRS project, "recommender v3.5").

Modelling conventions:
* Python strings are modelled as Lean strings; character-level operations
  work on `String.data` (the list of characters).  Case mapping is the
  ASCII one (`Char.toLower` / `Char.toUpper`), which agrees with Python
  on the ASCII range.
* The Python floats in `STAGE_WEIGHT` are modelled as exact rationals
  (the decimal literals of the source); `int(x)` on a non-negative float
  is modelled as the rational floor.
* Python dicts are modelled as association lists in insertion order
  (`dictAppend` is `sections.setdefault(stage, []).append(summary)`),
  and the `seen` sets as lists with membership.
* The external collaborators (the sentence-transformer embedder and the
  Chroma collection) are outside the core: each function below takes the
  list of metadata dicts returned by `collection.query` as an explicit
  argument.  The `random.shuffle` of phase 2 of the related-topic ranker
  is likewise an explicit argument (the spec asks for an injectable
  randomness source); it stands for the shuffled `all_topics` list.
-/

set_option maxRecDepth 1000000

namespace Recommender

/-- Characters treated as whitespace by Python `str.split()` / `str.strip()` /
the regex class backslash-s, restricted to the ASCII range. -/
def isPySpace (c : Char) : Bool :=
  c = ' ' || c = '\t' || c = '\n' || c = '\r' || c = '\x0b' || c = '\x0c'

/-- Python `str.lower()` (ASCII). -/
def lowerL (l : List Char) : List Char := l.map Char.toLower

/-- Worker for Python `text.replace(pat, "")` with structural recursion on
a fuel argument (the fuel is always at least the length of the text, so
the zero-fuel branch is never reached; a fuel step is consumed for each
character position examined).  At a position where the non-empty pattern
matches, the occurrence is skipped; scanning resumes after it. -/
def removeOccFuel (pat : List Char) : Nat → List Char → List Char
  | _, [] => []
  | 0, l => l
  | fuel + 1, c :: cs =>
    if List.isPrefixOf pat (c :: cs) then removeOccFuel pat fuel (cs.drop (pat.length - 1))
    else c :: removeOccFuel pat fuel cs

/-- Python `text.replace(pat, "")`: remove every (non-overlapping, leftmost
first) occurrence of the non-empty pattern `pat`. -/
def removeOcc (pat : List Char) (l : List Char) : List Char :=
  removeOccFuel pat l.length l

/-- The fixed filler-phrase list `garbage` of `clean_text` (recommender.py
lines 93-97). -/
def GARBAGE : List String :=
  ["here\x27s a", "here is a", "4-5 line",
   "for revision", "summary", "unfortunately",
   "the given text", "i can provide"]

/-- The `for g in garbage: text = text.replace(g, "")` loop. -/
def removeGarbage (l : List Char) : List Char :=
  GARBAGE.foldl (fun acc g => removeOcc g.data acc) l

/-- Worker for the regex substitution `re.sub(r"\(.*?\)", "", text)`.
A match starts at a left parenthesis and ends at the next right
parenthesis, with no newline in between (lazy `.*?`, and `.` does not
match a newline).  The state `some buf` means we are inside a potential
match whose body so far is `buf` (reversed); if the end of the input or a
newline is reached first, the pending characters are emitted unchanged
(the regex fails at that opening parenthesis, and every later opening
parenthesis inside `buf` also cannot reach a closing one before the same
newline/end, so flushing the whole buffer is faithful). -/
def removeParensGo : List Char → Option (List Char) → List Char
  | [], none => []
  | [], some buf => '(' :: buf.reverse
  | c :: cs, none =>
    if c = '(' then removeParensGo cs (some [])
    else c :: removeParensGo cs none
  | c :: cs, some buf =>
    if c = ')' then removeParensGo cs none
    else if c = '\n' then ('(' :: buf.reverse) ++ '\n' :: removeParensGo cs none
    else removeParensGo cs (some (c :: buf))

/-- `re.sub(r"\(.*?\)", "", text)` (recommender.py line 101). -/
def removeParens (l : List Char) : List Char := removeParensGo l none

/-- Worker for `re.sub(r"\s+", " ", text)`: each maximal run of whitespace
characters becomes a single space.  The flag records whether the previous
character was whitespace. -/
def collapseWsGo : Bool → List Char → List Char
  | _, [] => []
  | prevSp, c :: cs =>
    if isPySpace c then
      (if prevSp then [] else [' ']) ++ collapseWsGo true cs
    else c :: collapseWsGo false cs

/-- `re.sub(r"\s+", " ", text)` (recommender.py line 102). -/
def collapseWs (l : List Char) : List Char := collapseWsGo false l

/-- Drop trailing whitespace. -/
def dropTrailingSp (l : List Char) : List Char :=
  (l.reverse.dropWhile isPySpace).reverse

/-- Python `str.strip()` (character level). -/
def stripL (l : List Char) : List Char :=
  dropTrailingSp (l.dropWhile isPySpace)

/-- Python `str.strip()`. -/
def pyStrip (s : String) : String := ⟨stripL s.data⟩

/-- Python `str.capitalize()`: first character uppercased, the rest
lowercased. -/
def capitalizeL : List Char → List Char
  | [] => []
  | c :: cs => c.toUpper :: cs.map Char.toLower

/-- The string branch of `clean_text` (recommender.py lines 92-104):
lower-case, strip the filler phrases, delete parenthesised substrings,
collapse whitespace, strip, capitalize. -/
def cleanTextStr (s : String) : String :=
  ⟨capitalizeL (stripL (collapseWs (removeParens (removeGarbage (lowerL s.data)))))⟩

/-- A Python value as far as `clean_text` and the metadata dicts are
concerned: a string or one of the non-string metadata value kinds Chroma
can store. -/
inductive PyVal where
  | str (s : String)
  | none
  | bool (b : Bool)
  | int (n : Int)
deriving DecidableEq

/-- The `isinstance(text, str)` test. -/
def PyVal.isStr : PyVal → Bool
  | .str _ => true
  | _ => false

/-- `clean_text` (recommender.py lines 88-104).  Non-string input
(including `None`) yields the empty string. -/
def clean_text : PyVal → String
  | .str s => cleanTextStr s
  | _ => ""

/-- Characters kept by `re.sub(r"[^a-z0-9 ]", "", ...)`. -/
def normKeep (c : Char) : Bool :=
  ('a' ≤ c && c ≤ 'z') || ('0' ≤ c && c ≤ '9') || c = ' '

/-- `normalize` (recommender.py lines 107-108): the dedup key of a
summary. -/
def normalize (s : String) : String :=
  ⟨stripL ((lowerL s.data).filter normKeep)⟩

/-- Worker for Python `len(s.split())`: number of maximal nonwhitespace
runs; the flag records whether we are inside a run. -/
def tokCount : Bool → List Char → Nat
  | _, [] => 0
  | inTok, c :: cs =>
    if isPySpace c then tokCount false cs
    else (if inTok then 0 else 1) + tokCount true cs

/-- Python `len(s.split())`: the word count used by `get_explanation`. -/
def pyWordCount (s : String) : Nat := tokCount false s.data

/-- Python `str.lower()`. -/
def pyLower (s : String) : String := ⟨lowerL s.data⟩

/-- Worker for Python `str.title()`: a letter is uppercased when the
previous character is not a letter, lowercased otherwise (ASCII). -/
def pyTitleGo : Bool → List Char → List Char
  | _, [] => []
  | prevAlpha, c :: cs =>
    if c.isAlpha then
      (if prevAlpha then c.toLower else c.toUpper) :: pyTitleGo true cs
    else c :: pyTitleGo false cs

/-- `topic.replace("_", " ").title()` (recommender.py lines 196 and 214). -/
def titleClean (topic : String) : String :=
  ⟨pyTitleGo false (topic.data.map (fun c => if c = '_' then ' ' else c))⟩

/-- Python `" ".join(lines)`. -/
def joinSpace : List String → String
  | [] => ""
  | [l] => l
  | l :: ls => l ++ " " ++ joinSpace ls

/-- Python `"\n".join(parts)`. -/
def joinNl : List String → String
  | [] => ""
  | [l] => l
  | l :: ls => l ++ "\n" ++ joinNl ls

/-- recommender.py line 32. -/
def WORDS_PER_MIN : Nat := 120

/-- recommender.py line 33. -/
def TOP_K_EXPLANATION : Nat := 30

/-- recommender.py line 34. -/
def TOP_K_RELATED_SEARCH : Nat := 40

/-- recommender.py line 35. -/
def MAX_RELATED_TILES : Nat := 12

/-- recommender.py lines 37-41. -/
def STAGE_ORDER : List String :=
  ["definition", "types", "construction", "working",
   "formulas", "applications", "advantages",
   "disadvantages", "general"]

/-- recommender.py lines 43-53 (`STAGE_TITLES[stage]`; only ever indexed
with members of `STAGE_ORDER`). -/
def STAGE_TITLES (s : String) : String :=
  if s = "definition" then "Definition"
  else if s = "types" then "Types"
  else if s = "construction" then "Construction / Structure"
  else if s = "working" then "Working Principle"
  else if s = "formulas" then "Key Formulas"
  else if s = "applications" then "Applications"
  else if s = "advantages" then "Advantages"
  else if s = "disadvantages" then "Limitations"
  else if s = "general" then "Additional Notes"
  else ""

/-- recommender.py lines 55-65: the fixed stage-weight table, with the
float literals read as exact rationals. -/
def STAGE_WEIGHT : List (String × ℚ) :=
  [("definition", 0.12), ("types", 0.12), ("construction", 0.14),
   ("working", 0.20), ("formulas", 0.14), ("applications", 0.14),
   ("advantages", 0.07), ("disadvantages", 0.07), ("general", 0.10)]

/-- Dict lookup on an association list (first matching key). -/
def weightLookup : List (String × ℚ) → String → Option ℚ
  | [], _ => Option.none
  | (k, w) :: rest, s => if k = s then some w else weightLookup rest s

/-- `STAGE_WEIGHT.get(stage, 0.1)` (recommender.py line 150). -/
def stageWeight (s : String) : ℚ := (weightLookup STAGE_WEIGHT s).getD 0.1

/-- One metadata dict attached to an index match (a `ChunkMatch`).  A
field is `Option.none` when the key is absent from the dict.  The
similarity distance is not modelled: the ranker loop never uses it. -/
structure Meta where
  topic : Option String := Option.none
  stage : Option String := Option.none
  summary : Option PyVal := Option.none

/-- The filtering loop of `get_explanation` (recommender.py lines
129-141), flattened to the list of `(stage, cleaned summary)` pairs that
are appended to the stage buckets, in iteration order.  `seen` is the set
of dedup keys already placed. -/
def keptPairs : List Meta → List String → List (String × String)
  | [], _ => []
  | m :: ms, seen =>
    let stage := m.stage.getD "general"
    let summary := clean_text (m.summary.getD (PyVal.str ""))
    if summary = "" then keptPairs ms seen
    else if normalize summary ∈ seen then keptPairs ms seen
    else (stage, summary) :: keptPairs ms (normalize summary :: seen)

/-- The stage bucket for `s` described directly: the kept summaries whose
stage is `s`, in order.  (`assemblerSections_eq_bucket` below proves this
equal to the dict built by the source loop.) -/
def bucket (metas : List Meta) (s : String) : List String :=
  ((keptPairs metas []).filter (fun p => p.1 = s)).map Prod.snd

/-- `sections.setdefault(stage, []).append(summary)`: append `v` to the
entry of `k`, creating the entry (at the end, as dict insertion does) if
absent. -/
def dictAppend : List (String × List String) → String → String → List (String × List String)
  | [], k, v => [(k, [v])]
  | (k', vs) :: rest, k, v =>
    if k' = k then (k', vs ++ [v]) :: rest
    else (k', vs) :: dictAppend rest k v

/-- `sections.get(s, [])`. -/
def sectionsGet : List (String × List String) → String → List String
  | [], _ => []
  | (k, vs) :: rest, s => if k = s then vs else sectionsGet rest s

/-- `{k: [] for k in STAGE_ORDER}` (recommender.py line 125). -/
def initSections : List (String × List String) :=
  STAGE_ORDER.map (fun s => (s, []))

/-- The bucket-building loop of `get_explanation` (recommender.py lines
129-141) over the metadata dicts, as written in the source. -/
def buildSections : List Meta → List (String × List String) → List String → List (String × List String)
  | [], sections, _ => sections
  | m :: ms, sections, seen =>
    let stage := m.stage.getD "general"
    let summary := clean_text (m.summary.getD (PyVal.str ""))
    if summary = "" then buildSections ms sections seen
    else if normalize summary ∈ seen then buildSections ms sections seen
    else buildSections ms (dictAppend sections stage summary) (normalize summary :: seen)

/-- The stage buckets of `get_explanation` after the filtering loop. -/
def assemblerSections (metas : List Meta) (s : String) : List String :=
  sectionsGet (buildSections metas initSections []) s

/-- The stage weight as an exact percentage (every entry of
`STAGE_WEIGHT`, and the default 0.1, is a multiple of 1/100);
`stageWeight_eq_pct` below proves this matches `stageWeight`. -/
def stagePct (s : String) : Nat :=
  if s = "definition" then 12
  else if s = "types" then 12
  else if s = "construction" then 14
  else if s = "working" then 20
  else if s = "formulas" then 14
  else if s = "applications" then 14
  else if s = "advantages" then 7
  else if s = "disadvantages" then 7
  else if s = "general" then 10
  else 10

/-- `int(max_words * STAGE_WEIGHT.get(stage, 0.1))` (recommender.py line
150); truncation of a non-negative float is the floor, computed here in
natural arithmetic (`stageBudget_eq_floor` below proves it equal to the
rational floor of `max_words` times the table weight). -/
def stageBudget (maxW : Nat) (s : String) : Nat :=
  maxW * stagePct s / 100

/-- The inner `for line in lines` loop of `get_explanation` (lines
154-161): accumulate lines into the paragraph; after appending a line,
stop once the stage word count reaches the stage budget or the global
word count reaches `maxW`.  Returns the paragraph and the new global word
count. -/
def takePara (budget maxW : Nat) : List String → Nat → Nat → List String × Nat
  | [], _, used => ([], used)
  | l :: ls, stageWords, used =>
    let w := pyWordCount l
    if stageWords + w ≥ budget ∨ used + w ≥ maxW then ([l], used + w)
    else
      let rest := takePara budget maxW ls (stageWords + w) (used + w)
      (l :: rest.1, rest.2)

/-- The outer `for stage in STAGE_ORDER` loop of `get_explanation` (lines
145-168): walk the given stage list, emitting `(stage, paragraph)`
sections for non-empty buckets, and stop entirely once the global word
count has reached `maxW`.  Returns the emitted sections and the final
global word count. -/
def emitSections (B : String → List String) (maxW : Nat) : List String → Nat → List (String × List String) × Nat
  | [], used => ([], used)
  | st :: rest, used =>
    let lines := B st
    if lines = [] then emitSections B maxW rest used
    else
      let res := takePara (stageBudget maxW st) maxW lines 0 used
      let sec := if res.1 = [] then [] else [(st, res.1)]
      if res.2 ≥ maxW then (sec, res.2)
      else
        let tail := emitSections B maxW rest res.2
        (sec ++ tail.1, tail.2)

/-- The stage sections emitted by `get_explanation` for the given match
metadatas and requested minutes. -/
def explanationSections (metas : List Meta) (t : Nat) : List (String × List String) :=
  (emitSections (assemblerSections metas) (t * WORDS_PER_MIN) STAGE_ORDER 0).1

/-- The flat `output` list of `get_explanation` (lines 163-165): for each
emitted section, the header part and the space-joined paragraph part. -/
def renderParts (secs : List (String × List String)) : List String :=
  (secs.map (fun p => ["\n" ++ STAGE_TITLES p.1 ++ ":\n", joinSpace p.2 ++ "\n"])).flatten

/-- `get_explanation(query, time_minutes)` (recommender.py lines 113-173)
with the index reply passed explicitly.  Empty output yields the fallback
sentence; otherwise the parts are newline-joined and stripped. -/
def get_explanation (q : String) (t : Nat) (metas : List Meta) : String :=
  let output := renderParts (explanationSections metas t)
  if output = [] then q ++ " is an important electronics topic."
  else pyStrip (joinNl output)

/-- All summary lines appearing in the emitted sections, in output
order. -/
def allExplanationLines (metas : List Meta) (t : Nat) : List String :=
  ((explanationSections metas t).map Prod.snd).flatten

/-- The largest word count among a list of lines. -/
def maxLineWords (ls : List String) : Nat :=
  (ls.map pyWordCount).foldr max 0

/-- The word count contributed by the header part of the section for
stage `st`. -/
def headerWords (st : String) : Nat :=
  pyWordCount ("\n" ++ STAGE_TITLES st ++ ":\n")

/-- Phase 1 of `get_related_topics` (recommender.py lines 191-205): the
relevance pass over the index matches, threading the `ranked` list and
the `seen` set.  An empty (or absent) topic and a topic equal to the
query skip the iteration entirely (including the break check); otherwise
the cleaned topic is appended if unseen, and the loop breaks once
`ranked` has `MAX_RELATED_TILES // 2` entries. -/
def phase1Go (q : String) : List Meta → List String → List String → List String × List String
  | [], ranked, seen => (ranked, seen)
  | m :: ms, ranked, seen =>
    let topic := m.topic.getD ""
    if topic = "" then phase1Go q ms ranked seen
    else
      let tc := titleClean topic
      if pyLower tc = pyLower q then phase1Go q ms ranked seen
      else if tc ∈ seen then
        (if ranked.length ≥ MAX_RELATED_TILES / 2 then (ranked, seen)
         else phase1Go q ms ranked seen)
      else
        (if (ranked ++ [tc]).length ≥ MAX_RELATED_TILES / 2 then (ranked ++ [tc], tc :: seen)
         else phase1Go q ms (ranked ++ [tc]) (tc :: seen))

/-- Phase 2 of `get_related_topics` (recommender.py lines 207-221): the
exploration pass over the shuffled topic list, continuing with the
`ranked`/`seen` state left by phase 1, breaking once `ranked` has
`MAX_RELATED_TILES` entries. -/
def phase2Go (q : String) : List String → List String → List String → List String
  | [], ranked, _ => ranked
  | t :: ts, ranked, seen =>
    let tc := titleClean t
    if tc ∉ seen ∧ pyLower tc ≠ pyLower q then
      (if (ranked ++ [tc]).length ≥ MAX_RELATED_TILES then ranked ++ [tc]
       else phase2Go q ts (ranked ++ [tc]) (tc :: seen))
    else
      (if ranked.length ≥ MAX_RELATED_TILES then ranked
       else phase2Go q ts ranked seen)

/-- The distinct topics present in the match batch:
`set(m["topic"] for m in results["metadatas"][0] if "topic" in m)`
(recommender.py lines 208-210).  `shuffled` below stands for a
permutation of this list. -/
def presentTopics (metas : List Meta) : List String :=
  (metas.filterMap Meta.topic).dedup

/-- `get_related_topics(query)` (recommender.py lines 178-222) with the
index reply and the shuffled topic list passed explicitly. -/
def get_related_topics (q : String) (metas : List Meta) (shuffled : List String) : List String :=
  let p1 := phase1Go q metas [] []
  phase2Go q shuffled p1.1 p1.2

/-- The response dict of `explain` (recommender.py lines 227-233). -/
structure ExplainResult where
  topic : String
  time_minutes : Nat
  explanation : String
  related_topics : List String

/-- `explain(query, time_minutes)` (recommender.py lines 227-233); the two
index replies (30-result one for the assembler, 40-result one for the
ranker) and the shuffle are passed explicitly. -/
def explain (q : String) (t : Nat) (metasExp metasRel : List Meta) (shuffled : List String) : ExplainResult :=
  { topic := q
    time_minutes := t
    explanation := get_explanation q t metasExp
    related_topics := get_related_topics q metasRel shuffled }

/-- Shorthand for a match metadata with a stage and a string summary. -/
def mkMeta (st sm : String) : Meta :=
  { stage := some st, summary := some (PyVal.str sm) }

/-- A match whose stage is present but not one of the canonical stage
names, with a non-empty summary. -/
def c2meta : Meta :=
  { topic := some "resistor", stage := some "overview",
    summary := some (PyVal.str "limits current flow in circuits") }

/-- A batch of matches for `time_minutes = 1` (budget 120 words): every
stage bucket is filled to just below its stage budget with lines of at
most 13 words, so that the emitted body reaches 120 words exactly while
all nine section headers (14 words in total) are also emitted. -/
def c3metas : List Meta :=
  [mkMeta "definition" "aa bb cc dd ee ff gg hh ii jj kk ll mm",
   mkMeta "definition" "nn",
   mkMeta "types" "ab bb cc dd ee ff gg hh ii jj kk ll mm",
   mkMeta "types" "oo",
   mkMeta "construction" "ac bb cc dd ee ff gg hh ii jj kk ll mm",
   mkMeta "construction" "pp qq rr",
   mkMeta "working" "ad bb cc dd ee ff gg hh ii jj kk ll mm",
   mkMeta "working" "ba bb bc bd be bf bg bh bi bj bk",
   mkMeta "formulas" "ae bb cc dd ee ff gg hh ii jj kk ll mm",
   mkMeta "formulas" "ps qs rs",
   mkMeta "applications" "af bb cc dd ee ff gg hh ii jj kk ll mm",
   mkMeta "applications" "pt qt rt",
   mkMeta "advantages" "ca cb cc cd ce cf cg ch",
   mkMeta "disadvantages" "da db dc dd de df dg dh",
   mkMeta "general" "ea eb ec ed"]

/-- A match with no stage key and a non-empty summary. -/
def noStageMeta : Meta :=
  { stage := Option.none, summary := some (PyVal.str "stores charge") }

/-- Six matches with distinct topics, none equal to the query "led". -/
def c7metas : List Meta :=
  [{ topic := some "t1" }, { topic := some "t2" }, { topic := some "t3" },
   { topic := some "t4" }, { topic := some "t5" }, { topic := some "t6" }]

/- ===================== theorems ===================== -/

/-- The table weight (and the 0.1 default) of every stage equals its
percentage over 100. -/
theorem stageWeight_eq_pct (s : String) : stageWeight s = (stagePct s : ℚ) / 100 := by
  unfold stagePct
  split_ifs with h1 h2 h3 h4 h5 h6 h7 h8 h9
  · subst h1; simp [stageWeight, weightLookup, STAGE_WEIGHT]; try norm_num
  · subst h2; simp [stageWeight, weightLookup, STAGE_WEIGHT]; try norm_num
  · subst h3; simp [stageWeight, weightLookup, STAGE_WEIGHT]; try norm_num
  · subst h4; simp [stageWeight, weightLookup, STAGE_WEIGHT]; try norm_num
  · subst h5; simp [stageWeight, weightLookup, STAGE_WEIGHT]; try norm_num
  · subst h6; simp [stageWeight, weightLookup, STAGE_WEIGHT]; try norm_num
  · subst h7; simp [stageWeight, weightLookup, STAGE_WEIGHT]; try norm_num
  · subst h8; simp [stageWeight, weightLookup, STAGE_WEIGHT]; try norm_num
  · subst h9; simp [stageWeight, weightLookup, STAGE_WEIGHT]; try norm_num
  · have n1 : "definition" ≠ s := fun h => h1 h.symm
    have n2 : "types" ≠ s := fun h => h2 h.symm
    have n3 : "construction" ≠ s := fun h => h3 h.symm
    have n4 : "working" ≠ s := fun h => h4 h.symm
    have n5 : "formulas" ≠ s := fun h => h5 h.symm
    have n6 : "applications" ≠ s := fun h => h6 h.symm
    have n7 : "advantages" ≠ s := fun h => h7 h.symm
    have n8 : "disadvantages" ≠ s := fun h => h8 h.symm
    have n9 : "general" ≠ s := fun h => h9 h.symm
    simp [stageWeight, weightLookup, STAGE_WEIGHT, n1, n2, n3, n4, n5, n6, n7, n8, n9]
    norm_num

/-- The natural-arithmetic stage budget is exactly the floor of
`max_words` times the rational table weight, i.e. the
`int(max_words * STAGE_WEIGHT.get(stage, 0.1))` of the source. -/
theorem stageBudget_eq_floor (maxW : Nat) (s : String) :
    stageBudget maxW s = (⌊(maxW : ℚ) * stageWeight s⌋).toNat := by
  rw [stageWeight_eq_pct, stageBudget]
  have hcast : (maxW : ℚ) * ((stagePct s : ℚ) / 100) =
      ((maxW * stagePct s : ℕ) : ℚ) / ((100 : ℕ) : ℚ) := by push_cast; ring
  rw [hcast, Int.floor_toNat, Nat.floor_div_nat, Nat.floor_natCast]

/-- Every stage name carried by an emitted section comes from the stage
list the emission loop walks, in order. -/
theorem emitSections_fst_sublist (B : String → List String) (maxW : Nat) :
    ∀ stages used, List.Sublist ((emitSections B maxW stages used).1.map Prod.fst) stages := by
  intro stages
  induction stages with
  | nil => intro used; simp [emitSections]
  | cons st rest ih =>
    intro used
    simp only [emitSections]
    by_cases hB : B st = []
    · simpa [hB] using List.Sublist.cons st (ih used)
    · simp only [hB, if_neg (by simpa using hB)]
      set res := takePara (stageBudget maxW st) maxW (B st) 0 used with hres
      by_cases hp : res.1 = []
      · simp only [hp, if_pos rfl]
        by_cases hstop : res.2 ≥ maxW
        · simp [hstop]
        · simpa [hstop] using List.Sublist.cons st (ih res.2)
      · simp only [if_neg hp]
        by_cases hstop : res.2 ≥ maxW
        · simp [hstop]
        · simp only [if_neg hstop, List.map_append]
          exact List.Sublist.cons₂ st (ih res.2)

/-- C6: for every sequence of matches and every time budget, the stage
sections emitted by the Assembler appear in the canonical `STAGE_ORDER`
order (their stage names form a sublist of `STAGE_ORDER`), regardless of
the order stages occur in the input matches. -/
theorem sections_canonical_order :
    ∀ metas t, List.Sublist ((explanationSections metas t).map Prod.fst) STAGE_ORDER :=
  fun metas t => emitSections_fst_sublist (assemblerSections metas) (t * WORDS_PER_MIN) STAGE_ORDER 0

/-- C1 counterexample: the stage-weight table used by the per-stage
budget computation does not sum to 1. -/
theorem stage_weight_sum_ne_one : ¬ (STAGE_WEIGHT.map Prod.snd).sum = 1 := by
  norm_num [STAGE_WEIGHT]

/-- C1 (amended): the stage-weight table (definition 0.12, types 0.12,
construction 0.14, working 0.20, formulas 0.14, applications 0.14,
advantages 0.07, disadvantages 0.07, general 0.10) sums to 1.10, not
1.0. -/
theorem stage_weight_sum_eq : (STAGE_WEIGHT.map Prod.snd).sum = 11 / 10 := by
  norm_num [STAGE_WEIGHT]

/-- C8: if the index returns zero matches, `explain` yields the fallback
sentence as the explanation and the empty related-topic list (the
shuffle of the empty topic set is necessarily empty). -/
theorem empty_index_fallback :
    ∀ (q : String) (t : Nat) (shuffled : List String), shuffled.Perm (presentTopics []) →
      (explain q t [] [] shuffled).explanation = q ++ " is an important electronics topic." ∧
      (explain q t [] [] shuffled).related_topics = [] := by
  intro q t shuffled hperm
  have hnil : shuffled = [] := List.Perm.eq_nil (by simpa [presentTopics] using hperm)
  subst hnil
  exact ⟨rfl, rfl⟩

/-- C8 witness: the particular instance `explain("any topic", 5)` on an
empty index. -/
theorem empty_index_fallback_witness :
    (explain "any topic" 5 [] [] []).explanation = "any topic is an important electronics topic." ∧
    (explain "any topic" 5 [] [] []).related_topics = [] := by
  have h := empty_index_fallback "any topic" 5 [] (List.Perm.refl _)
  exact ⟨h.1.trans (by decide), h.2⟩

/-- C9: `clean_text` returns the empty string on `None`, on the empty
string, and on every non-string value; and any input whose cleaning
pipeline reduces to nothing yields the empty string. -/
theorem clean_text_empty_cases :
    clean_text PyVal.none = "" ∧ clean_text (PyVal.str "") = "" ∧
    (∀ v : PyVal, v.isStr = false → clean_text v = "") ∧
    (∀ s : String, stripL (collapseWs (removeParens (removeGarbage (lowerL s.data)))) = [] →
      cleanTextStr s = "") := by
  refine ⟨rfl, rfl, ?_, ?_⟩
  · intro v hv
    cases v <;> simp_all [clean_text, PyVal.isStr]
  · intro s hs
    simp [cleanTextStr, hs, capitalizeL]

/-- C2 counterexample: a match whose stage is present but unrecognized
("overview") with a non-empty, non-duplicate summary is not placed in the
"general" bucket, and its summary does not appear in the output at all
(the output is the fallback sentence). -/
theorem unknown_stage_dropped :
    c2meta.stage = some "overview" ∧ "overview" ∉ STAGE_ORDER ∧
    clean_text (c2meta.summary.getD (PyVal.str "")) ≠ "" ∧
    assemblerSections [c2meta] "general" = [] ∧
    get_explanation "resistor" 5 [c2meta] = "resistor is an important electronics topic." :=
  ⟨rfl, by decide, by decide, by decide, by decide⟩

/-- C2 (amended): a match whose stage key is absent is bucketed under
"general" (its non-empty, non-duplicate cleaned summary is appended
there), while a match with an unrecognized stage name goes to a bucket
under that name which the emission never visits: every emitted section's
stage is a member of `STAGE_ORDER`. -/
theorem absent_stage_bucketed_general :
    (∀ m : Meta, m.stage = Option.none → clean_text (m.summary.getD (PyVal.str "")) ≠ "" →
      assemblerSections [m] "general" = [clean_text (m.summary.getD (PyVal.str ""))]) ∧
    (∀ metas t p, p ∈ explanationSections metas t → p.1 ∈ STAGE_ORDER) := by
  constructor
  · intro m hst hsum
    simp [assemblerSections, buildSections, hst, hsum, initSections, STAGE_ORDER,
      dictAppend, sectionsGet]
  · intro metas t p hp
    have hsub := emitSections_fst_sublist (assemblerSections metas) (t * WORDS_PER_MIN) STAGE_ORDER 0
    exact hsub.subset (List.mem_map_of_mem Prod.fst hp)

/-- C2 witness: a concrete stage-less match lands in the general bucket,
and a concrete emitted section's stage is canonical. -/
theorem absent_stage_bucketed_general_witness :
    assemblerSections [noStageMeta] "general" = [clean_text (noStageMeta.summary.getD (PyVal.str ""))] ∧
    (("general", ["Stores charge"]) : String × List String).1 ∈ STAGE_ORDER :=
  ⟨absent_stage_bucketed_general.1 noStageMeta rfl (by decide),
   absent_stage_bucketed_general.2 [noStageMeta] 1 ("general", ["Stores charge"]) (by decide)⟩

/-- C3 counterexample: for `time_minutes = 1` and the matches `c3metas`,
the output of the Assembler has 134 words, while every emitted line has
at most 13 words: the total exceeds `time_minutes * 120` plus the length
of any single stage's final overshoot line (the excess comes from the
emitted section headers, whose words are not counted by the budget
loop). -/
theorem output_words_exceed_claimed_bound :
    pyWordCount (get_explanation "resistor" 1 c3metas) = 134 ∧
    maxLineWords (allExplanationLines c3metas 1) = 13 ∧
    1 * WORDS_PER_MIN + maxLineWords (allExplanationLines c3metas 1) <
      pyWordCount (get_explanation "resistor" 1 c3metas) :=
  ⟨by decide, by decide, by decide⟩

/-- C9 witness: a non-string value and a string that cleans to nothing. -/
theorem clean_text_empty_cases_witness :
    (PyVal.int 3).isStr = false ∧ clean_text (PyVal.int 3) = "" ∧
    stripL (collapseWs (removeParens (removeGarbage (lowerL ("  (abc) ").data)))) = [] ∧
    cleanTextStr "  (abc) " = "" := by
  refine ⟨rfl, clean_text_empty_cases.2.2.1 _ rfl, by decide,
    clean_text_empty_cases.2.2.2 _ (by decide)⟩

/-- `pyTitleGo` preserves the length of the character list. -/
theorem pyTitleGo_length : ∀ (b : Bool) (l : List Char), (pyTitleGo b l).length = l.length := by
  intro b l
  induction l generalizing b with
  | nil => rfl
  | cons c cs ih =>
    by_cases h : c.isAlpha <;> simp [pyTitleGo, h, ih]

/-- A non-empty topic cleans to a non-empty tile name. -/
theorem titleClean_ne_empty {t : String} (h : t ≠ "") : titleClean t ≠ "" := by
  intro he
  apply h
  have hd : (titleClean t).data = ([] : List Char) := by rw [he]
  have hlen : t.data.length = 0 := by
    have hc := congrArg List.length hd
    simpa [titleClean, pyTitleGo_length] using hc
  have hnil : t.data = [] := List.eq_nil_of_length_eq_zero hlen
  exact String.ext (by rw [hnil])

/-- A non-empty string lowercases to a non-empty string. -/
theorem pyLower_ne_empty {t : String} (h : t ≠ "") : pyLower t ≠ "" := by
  intro he
  apply h
  have hd : (pyLower t).data = ([] : List Char) := by rw [he]
  have hnil : t.data = [] := by simpa [pyLower, lowerL] using hd
  exact String.ext (by rw [hnil])

/-- Phase 1 never grows the ranked list past `MAX_RELATED_TILES // 2`. -/
theorem phase1Go_len_le (q : String) :
    ∀ (ms : List Meta) (ranked seen : List String), ranked.length < MAX_RELATED_TILES / 2 →
      (phase1Go q ms ranked seen).1.length ≤ MAX_RELATED_TILES / 2 := by
  intro ms
  induction ms with
  | nil => intro ranked seen h; simp only [phase1Go]; omega
  | cons m ms ih =>
    intro ranked seen h
    simp only [phase1Go]
    by_cases h0 : m.topic.getD "" = ""
    · rw [if_pos h0]; exact ih ranked seen h
    rw [if_neg h0]
    by_cases h1 : pyLower (titleClean (m.topic.getD "")) = pyLower q
    · rw [if_pos h1]; exact ih ranked seen h
    rw [if_neg h1]
    by_cases h2 : titleClean (m.topic.getD "") ∈ seen
    · rw [if_pos h2, if_neg (by omega : ¬ ranked.length ≥ MAX_RELATED_TILES / 2)]
      exact ih ranked seen h
    rw [if_neg h2]
    by_cases h3 : (ranked ++ [titleClean (m.topic.getD "")]).length ≥ MAX_RELATED_TILES / 2
    · rw [if_pos h3]
      show (ranked ++ [titleClean (m.topic.getD "")]).length ≤ MAX_RELATED_TILES / 2
      simp only [List.length_append, List.length_cons, List.length_nil]
      omega
    · rw [if_neg h3]
      refine ih _ _ ?_
      simp only [List.length_append, List.length_cons, List.length_nil] at h3 ⊢
      omega

/-- Once the ranked list of phase 1 has reached `MAX_RELATED_TILES // 2`
entries, the loop has broken: matches appended after that point are never
examined and do not change the result. -/
theorem phase1Go_stop (q : String) :
    ∀ (ms : List Meta) (ranked seen : List String) (extra : List Meta),
      ranked.length < MAX_RELATED_TILES / 2 →
      (phase1Go q ms ranked seen).1.length = MAX_RELATED_TILES / 2 →
      phase1Go q (ms ++ extra) ranked seen = phase1Go q ms ranked seen := by
  intro ms
  induction ms with
  | nil =>
    intro ranked seen extra h hfull
    simp only [phase1Go] at hfull
    omega
  | cons m ms ih =>
    intro ranked seen extra h hfull
    simp only [phase1Go] at hfull
    simp only [List.cons_append, phase1Go]
    by_cases h0 : m.topic.getD "" = ""
    · simp only [if_pos h0] at hfull ⊢; exact ih ranked seen extra h hfull
    simp only [if_neg h0] at hfull ⊢
    by_cases h1 : pyLower (titleClean (m.topic.getD "")) = pyLower q
    · simp only [if_pos h1] at hfull ⊢; exact ih ranked seen extra h hfull
    simp only [if_neg h1] at hfull ⊢
    by_cases h2 : titleClean (m.topic.getD "") ∈ seen
    · simp only [if_pos h2, if_neg (by omega : ¬ ranked.length ≥ MAX_RELATED_TILES / 2)] at hfull ⊢
      exact ih ranked seen extra h hfull
    simp only [if_neg h2] at hfull ⊢
    by_cases h3 : (ranked ++ [titleClean (m.topic.getD "")]).length ≥ MAX_RELATED_TILES / 2
    · simp only [if_pos h3]
    · simp only [if_neg h3] at hfull ⊢
      refine ih _ _ extra ?_ hfull
      simp only [List.length_append, List.length_cons, List.length_nil] at h3 ⊢
      omega

/-- Phase 1 preserves: the query never appears (case-insensitively) in the
ranked list, the ranked list has no duplicates and is contained in the
seen set, and the empty string, once absent from both, stays absent from
both (phase 1 skips every empty topic, and a cleaned non-empty topic is
non-empty). -/
theorem phase1Go_inv (q : String) :
    ∀ (ms : List Meta) (ranked seen : List String),
      pyLower q ∉ ranked.map pyLower → ranked.Nodup → (∀ x ∈ ranked, x ∈ seen) →
      pyLower q ∉ (phase1Go q ms ranked seen).1.map pyLower ∧
      (phase1Go q ms ranked seen).1.Nodup ∧
      (∀ x ∈ (phase1Go q ms ranked seen).1, x ∈ (phase1Go q ms ranked seen).2) ∧
      ("" ∉ ranked → "" ∉ seen →
        "" ∉ (phase1Go q ms ranked seen).1 ∧ "" ∉ (phase1Go q ms ranked seen).2) := by
  intro ms
  induction ms with
  | nil =>
    intro ranked seen hq hnd hsub
    simp only [phase1Go]
    exact ⟨hq, hnd, hsub, fun h1 h2 => ⟨h1, h2⟩⟩
  | cons m ms ih =>
    intro ranked seen hq hnd hsub
    simp only [phase1Go]
    by_cases h0 : m.topic.getD "" = ""
    · simp only [if_pos h0]; exact ih ranked seen hq hnd hsub
    simp only [if_neg h0]
    by_cases h1 : pyLower (titleClean (m.topic.getD "")) = pyLower q
    · simp only [if_pos h1]; exact ih ranked seen hq hnd hsub
    simp only [if_neg h1]
    by_cases h2 : titleClean (m.topic.getD "") ∈ seen
    · simp only [if_pos h2]
      by_cases h3 : ranked.length ≥ MAX_RELATED_TILES / 2
      · simp only [if_pos h3]
        exact ⟨hq, hnd, hsub, fun ha hb => ⟨ha, hb⟩⟩
      · simp only [if_neg h3]; exact ih ranked seen hq hnd hsub
    · simp only [if_neg h2]
      have htcne : titleClean (m.topic.getD "") ≠ "" := titleClean_ne_empty h0
      have hqtc : pyLower q ∉ (ranked ++ [titleClean (m.topic.getD "")]).map pyLower := by
        simp only [List.map_append, List.mem_append, List.map_cons, List.map_nil,
          List.mem_cons, List.not_mem_nil, or_false]
        rintro (hin | heq)
        · exact hq hin
        · exact h1 heq.symm
      have htcr : titleClean (m.topic.getD "") ∉ ranked := fun hin => h2 (hsub _ hin)
      have hnd2 : (ranked ++ [titleClean (m.topic.getD "")]).Nodup := by
        simp [List.nodup_append, hnd, htcr]
      have hsub2 : ∀ x ∈ ranked ++ [titleClean (m.topic.getD "")],
          x ∈ titleClean (m.topic.getD "") :: seen := by
        intro x hx
        rcases List.mem_append.1 hx with hx | hx
        · exact List.mem_cons_of_mem _ (hsub x hx)
        · simp at hx; simp [hx]
      by_cases h3 : (ranked ++ [titleClean (m.topic.getD "")]).length ≥ MAX_RELATED_TILES / 2
      · simp only [if_pos h3]
        refine ⟨hqtc, hnd2, hsub2, ?_⟩
        intro h4 h5
        constructor
        · show "" ∉ ranked ++ [titleClean (m.topic.getD "")]
          simp [List.mem_append, h4, Ne.symm htcne]
        · show "" ∉ titleClean (m.topic.getD "") :: seen
          simp [Ne.symm htcne, h5]
      · simp only [if_neg h3]
        have hres := ih (ranked ++ [titleClean (m.topic.getD "")])
          (titleClean (m.topic.getD "") :: seen) hqtc hnd2 hsub2
        refine ⟨hres.1, hres.2.1, hres.2.2.1, ?_⟩
        intro h4 h5
        exact hres.2.2.2 (by simp [List.mem_append, h4, Ne.symm htcne])
          (by simp [Ne.symm htcne, h5])

/-- Phase 2 never grows the ranked list past `MAX_RELATED_TILES`. -/
theorem phase2Go_len_le (q : String) :
    ∀ (ts ranked seen : List String), ranked.length < MAX_RELATED_TILES →
      (phase2Go q ts ranked seen).length ≤ MAX_RELATED_TILES := by
  intro ts
  induction ts with
  | nil => intro ranked seen h; simp only [phase2Go]; omega
  | cons t ts ih =>
    intro ranked seen h
    simp only [phase2Go]
    by_cases hc : titleClean t ∉ seen ∧ pyLower (titleClean t) ≠ pyLower q
    · rw [if_pos hc]
      by_cases h3 : (ranked ++ [titleClean t]).length ≥ MAX_RELATED_TILES
      · rw [if_pos h3]
        simp only [List.length_append, List.length_cons, List.length_nil]
        omega
      · rw [if_neg h3]
        refine ih _ _ ?_
        simp only [List.length_append, List.length_cons, List.length_nil] at h3 ⊢
        omega
    · rw [if_neg hc, if_neg (by omega : ¬ ranked.length ≥ MAX_RELATED_TILES)]
      exact ih ranked seen h

/-- Phase 2 preserves: the query never appears (case-insensitively) and no
duplicates appear. -/
theorem phase2Go_inv (q : String) :
    ∀ (ts ranked seen : List String),
      pyLower q ∉ ranked.map pyLower → ranked.Nodup → (∀ x ∈ ranked, x ∈ seen) →
      pyLower q ∉ (phase2Go q ts ranked seen).map pyLower ∧
      (phase2Go q ts ranked seen).Nodup := by
  intro ts
  induction ts with
  | nil =>
    intro ranked seen hq hnd hsub
    simp only [phase2Go]
    exact ⟨hq, hnd⟩
  | cons t ts ih =>
    intro ranked seen hq hnd hsub
    simp only [phase2Go]
    by_cases hc : titleClean t ∉ seen ∧ pyLower (titleClean t) ≠ pyLower q
    · simp only [if_pos hc]
      have hqtc : pyLower q ∉ (ranked ++ [titleClean t]).map pyLower := by
        simp only [List.map_append, List.mem_append, List.map_cons, List.map_nil,
          List.mem_cons, List.not_mem_nil, or_false]
        rintro (hin | heq)
        · exact hq hin
        · exact hc.2 heq.symm
      have htcr : titleClean t ∉ ranked := fun hin => hc.1 (hsub _ hin)
      have hnd2 : (ranked ++ [titleClean t]).Nodup := by
        simp [List.nodup_append, hnd, htcr]
      have hsub2 : ∀ x ∈ ranked ++ [titleClean t], x ∈ titleClean t :: seen := by
        intro x hx
        rcases List.mem_append.1 hx with hx | hx
        · exact List.mem_cons_of_mem _ (hsub x hx)
        · simp at hx; simp [hx]
      by_cases h3 : (ranked ++ [titleClean t]).length ≥ MAX_RELATED_TILES
      · simp only [if_pos h3]
        exact ⟨hqtc, hnd2⟩
      · simp only [if_neg h3]
        exact ih (ranked ++ [titleClean t]) (titleClean t :: seen) hqtc hnd2 hsub2
    · simp only [if_neg hc]
      by_cases h3 : ranked.length ≥ MAX_RELATED_TILES
      · simp only [if_pos h3]
        exact ⟨hq, hnd⟩
      · simp only [if_neg h3]
        exact ih ranked seen hq hnd hsub

/-- Entries already ranked survive phase 2. -/
theorem phase2Go_sup (q : String) :
    ∀ (ts ranked seen : List String) (x : String), x ∈ ranked →
      x ∈ phase2Go q ts ranked seen := by
  intro ts
  induction ts with
  | nil => intro ranked seen x hx; simpa [phase2Go] using hx
  | cons t ts ih =>
    intro ranked seen x hx
    simp only [phase2Go]
    by_cases hc : titleClean t ∉ seen ∧ pyLower (titleClean t) ≠ pyLower q
    · rw [if_pos hc]
      by_cases h3 : (ranked ++ [titleClean t]).length ≥ MAX_RELATED_TILES
      · rw [if_pos h3]
        exact List.mem_append_left _ hx
      · rw [if_neg h3]
        exact ih _ _ x (List.mem_append_left _ hx)
    · rw [if_neg hc]
      by_cases h3 : ranked.length ≥ MAX_RELATED_TILES
      · rw [if_pos h3]; exact hx
      · rw [if_neg h3]; exact ih _ _ x hx
/-- C5: for every query, match batch and shuffle order, the related-topic
list has at most `MAX_RELATED_TILES` entries, never contains an entry
case-insensitively equal to the query, and has no duplicate entries. -/
theorem related_topics_sound :
    ∀ (q : String) (metas : List Meta) (shuffled : List String),
      (get_related_topics q metas shuffled).length ≤ MAX_RELATED_TILES ∧
      pyLower q ∉ (get_related_topics q metas shuffled).map pyLower ∧
      (get_related_topics q metas shuffled).Nodup := by
  intro q metas shuffled
  have hlen1 : (phase1Go q metas [] []).1.length ≤ MAX_RELATED_TILES / 2 :=
    phase1Go_len_le q metas [] [] (by simp [MAX_RELATED_TILES])
  have hinv := phase1Go_inv q metas [] [] (by simp) (by simp) (by simp)
  refine ⟨?_, ?_, ?_⟩
  · exact phase2Go_len_le q shuffled _ _
      (lt_of_le_of_lt hlen1 (by norm_num [MAX_RELATED_TILES]))
  · exact (phase2Go_inv q shuffled _ _ hinv.1 hinv.2.1 hinv.2.2.1).1
  · exact (phase2Go_inv q shuffled _ _ hinv.1 hinv.2.1 hinv.2.2.1).2

/-- C7: the relevance pass (phase 1) contributes at most
`MAX_RELATED_TILES // 2 = 6` entries, and once the ranked list reaches 6
the iteration stops: matches appended after that point do not change the
result. -/
theorem phase1_relevance_cap :
    (∀ (q : String) (metas : List Meta),
      (phase1Go q metas [] []).1.length ≤ MAX_RELATED_TILES / 2) ∧
    (∀ (q : String) (metas extra : List Meta),
      (phase1Go q metas [] []).1.length = MAX_RELATED_TILES / 2 →
      phase1Go q (metas ++ extra) [] [] = phase1Go q metas [] []) :=
  ⟨fun q metas => phase1Go_len_le q metas [] [] (by simp [MAX_RELATED_TILES]),
   fun q metas extra hfull =>
     phase1Go_stop q metas [] [] extra (by simp [MAX_RELATED_TILES]) hfull⟩

/-- C7 witness: six distinct topics fill phase 1 exactly, and a seventh
match is never examined. -/
theorem phase1_relevance_cap_witness :
    (phase1Go "led" c7metas [] []).1.length = MAX_RELATED_TILES / 2 ∧
    phase1Go "led" (c7metas ++ [{ topic := some "t7" }]) [] [] =
      phase1Go "led" c7metas [] [] :=
  ⟨by decide, phase1_relevance_cap.2 "led" c7metas [{ topic := some "t7" }] (by decide)⟩

/-- C10: phase 1 never places the empty string in the ranked list (an
empty or missing topic skips the iteration), but phase 2's candidate set
may contain the empty string, and when the exploration loop reaches it
with fewer than `MAX_RELATED_TILES` entries ranked and the empty string
not yet seen, it is appended — in particular, for every non-empty query,
a shuffle order starting with the empty-string topic puts `""` in the
returned related-topic list. -/
theorem empty_topic_asymmetry :
    (∀ (q : String) (metas : List Meta), "" ∉ (phase1Go q metas [] []).1) ∧
    (∀ (q : String) (ranked seen ts : List String),
      q ≠ "" → ranked.length < MAX_RELATED_TILES → "" ∉ seen →
      "" ∈ phase2Go q ("" :: ts) ranked seen) ∧
    (∀ (q : String) (metas : List Meta) (rest : List String),
      q ≠ "" → "" ∈ get_related_topics q metas ("" :: rest)) := by
  have hmain : ∀ (q : String) (ranked seen ts : List String),
      q ≠ "" → ranked.length < MAX_RELATED_TILES → "" ∉ seen →
      "" ∈ phase2Go q ("" :: ts) ranked seen := by
    intro q ranked seen ts hq hlen hseen
    have htc : titleClean "" = "" := rfl
    have hqne : pyLower q ≠ pyLower "" := by
      intro he
      exact pyLower_ne_empty hq (he.trans rfl)
    have hcond : ("" : String) ∉ seen ∧ pyLower "" ≠ pyLower q :=
      ⟨hseen, fun he => hqne he.symm⟩
    have hmem : ("" : String) ∈ [("" : String)] := List.mem_singleton.mpr rfl
    simp only [phase2Go, htc]
    rw [if_pos hcond]
    by_cases h3 : (ranked ++ [""]).length ≥ MAX_RELATED_TILES
    · rw [if_pos h3]
      exact List.mem_append_right _ hmem
    · rw [if_neg h3]
      exact phase2Go_sup q ts _ _ "" (List.mem_append_right _ hmem)
  refine ⟨?_, hmain, ?_⟩
  · intro q metas
    exact ((phase1Go_inv q metas [] [] (by simp) (by simp) (by simp)).2.2.2
      (by simp) (by simp)).1
  · intro q metas rest hq
    have hinv := phase1Go_inv q metas [] [] (by simp) (by simp) (by simp)
    have hseen : "" ∉ (phase1Go q metas [] []).2 :=
      (hinv.2.2.2 (by simp) (by simp)).2
    have hlen : (phase1Go q metas [] []).1.length < MAX_RELATED_TILES :=
      lt_of_le_of_lt (phase1Go_len_le q metas [] [] (by simp [MAX_RELATED_TILES]))
        (by norm_num [MAX_RELATED_TILES])
    exact hmain q _ _ rest hq hlen hseen

/-- C10 witness: with query "Led", no matches and the shuffled candidate
list `["" ]`, the empty string appears in the result. -/
theorem empty_topic_asymmetry_witness :
    ("Led" : String) ≠ "" ∧ "" ∈ get_related_topics "Led" [] ("" :: []) :=
  ⟨by decide, empty_topic_asymmetry.2.2 "Led" [] [] (by decide)⟩

/-- `dictAppend` changes only the entry of its key: looking up the key
yields the old value with `v` appended, any other key is unchanged. -/
theorem sectionsGet_dictAppend :
    ∀ (l : List (String × List String)) (k v s : String),
      sectionsGet (dictAppend l k v) s =
        if k = s then sectionsGet l s ++ [v] else sectionsGet l s := by
  intro l
  induction l with
  | nil =>
    intro k v s
    by_cases h : k = s <;> simp [dictAppend, sectionsGet, h]
  | cons e rest ih =>
    intro k v s
    obtain ⟨ke, ve⟩ := e
    by_cases h1 : ke = k
    · subst h1
      by_cases h2 : ke = s <;> simp [dictAppend, sectionsGet, h2]
    · by_cases h2 : ke = s
      · subst h2
        have : ¬ k = ke := fun h => h1 h.symm
        simp [dictAppend, sectionsGet, h1, this]
      · simp [dictAppend, sectionsGet, h1, h2, ih]

/-- The bucket-building loop appends, for each stage, exactly the kept
summaries of that stage. -/
theorem buildSections_get :
    ∀ (ms : List Meta) (sections : List (String × List String)) (seen : List String) (s : String),
      sectionsGet (buildSections ms sections seen) s =
        sectionsGet sections s ++ ((keptPairs ms seen).filter (fun p => p.1 = s)).map Prod.snd := by
  intro ms
  induction ms with
  | nil => intro sections seen s; simp [buildSections, keptPairs]
  | cons m ms ih =>
    intro sections seen s
    simp only [buildSections, keptPairs]
    by_cases h0 : clean_text (m.summary.getD (PyVal.str "")) = ""
    · simp only [if_pos h0]; exact ih sections seen s
    simp only [if_neg h0]
    by_cases h1 : normalize (clean_text (m.summary.getD (PyVal.str ""))) ∈ seen
    · simp only [if_pos h1]; exact ih sections seen s
    simp only [if_neg h1]
    rw [ih]
    rw [sectionsGet_dictAppend]
    by_cases h2 : m.stage.getD "general" = s
    · simp [List.filter_cons, h2]
    · simp [List.filter_cons, h2]

/-- Every stage bucket starts empty. -/
theorem sectionsGet_init : ∀ s, sectionsGet initSections s = [] := by
  have haux : ∀ (L : List String) (s : String),
      sectionsGet (L.map (fun x => (x, ([] : List String)))) s = [] := by
    intro L
    induction L with
    | nil => intro s; simp [sectionsGet]
    | cons x xs ih =>
      intro s
      by_cases h : x = s <;> simp [sectionsGet, h, ih]
  intro s
  exact haux STAGE_ORDER s

/-- The dict built by the source loop agrees with the direct description
`bucket` of each stage's lines. -/
theorem assemblerSections_eq_bucket (metas : List Meta) (s : String) :
    assemblerSections metas s = bucket metas s := by
  rw [assemblerSections, buildSections_get, sectionsGet_init, bucket]
  rfl

/-- The dedup keys of the kept pairs are pairwise distinct and all fresh
with respect to the incoming seen set. -/
theorem keptPairs_keys_nodup :
    ∀ (ms : List Meta) (seen : List String),
      ((keptPairs ms seen).map (fun p => normalize p.2)).Nodup ∧
      ∀ k ∈ (keptPairs ms seen).map (fun p => normalize p.2), k ∉ seen := by
  intro ms
  induction ms with
  | nil => intro seen; simp [keptPairs]
  | cons m ms ih =>
    intro seen
    simp only [keptPairs]
    by_cases h0 : clean_text (m.summary.getD (PyVal.str "")) = ""
    · simp only [if_pos h0]; exact ih seen
    simp only [if_neg h0]
    by_cases h1 : normalize (clean_text (m.summary.getD (PyVal.str ""))) ∈ seen
    · simp only [if_pos h1]; exact ih seen
    simp only [if_neg h1]
    have hrec := ih (normalize (clean_text (m.summary.getD (PyVal.str ""))) :: seen)
    simp only [List.map_cons, List.nodup_cons]
    refine ⟨⟨?_, hrec.1⟩, ?_⟩
    · intro hmem
      exact (hrec.2 _ hmem) (List.mem_cons_self _ _)
    · intro k hk
      rcases List.mem_cons.1 hk with hk | hk
      · rw [hk]; exact h1
      · intro hks
        exact (hrec.2 k hk) (List.mem_cons_of_mem _ hks)

/-- Counting an element is dominated by counting its image. -/
theorem count_le_count_map {α β : Type} [DecidableEq α] [DecidableEq β] (f : α → β) :
    ∀ (l : List α) (a : α), l.count a ≤ (l.map f).count (f a) := by
  intro l a
  induction l with
  | nil => simp
  | cons x xs ih =>
    simp only [List.map_cons, List.count_cons]
    by_cases h : x = a
    · subst h; simp; omega
    · by_cases h2 : f x = f a <;> simp [h, h2] <;> omega

/-- Dedup keys of the bucket of `s` form a sublist of the kept keys. -/
theorem bucket_keys_sublist (metas : List Meta) (s : String) :
    List.Sublist ((bucket metas s).map normalize)
      ((keptPairs metas []).map (fun p => normalize p.2)) := by
  rw [bucket, List.map_map]
  have : (normalize ∘ Prod.snd : String × String → String) = fun p => normalize p.2 := rfl
  rw [this]
  exact (List.filter_sublist _).map _

/-- Buckets of different stages share no dedup key. -/
theorem bucket_keys_disjoint (metas : List Meta) {s s' : String} (hss : s ≠ s') :
    ∀ k, k ∈ (bucket metas s).map normalize → k ∈ (bucket metas s').map normalize → False := by
  intro k hk hk'
  have hex : ∃ p, p ∈ keptPairs metas [] ∧ p.1 = s ∧ normalize p.2 = k := by
    rcases List.mem_map.1 hk with ⟨x, hx, hxk⟩
    rcases List.mem_map.1 hx with ⟨p, hp, hpx⟩
    have hps := List.mem_filter.1 hp
    exact ⟨p, hps.1, by simpa using hps.2, by rw [hpx]; exact hxk⟩
  have hex' : ∃ p, p ∈ keptPairs metas [] ∧ p.1 = s' ∧ normalize p.2 = k := by
    rcases List.mem_map.1 hk' with ⟨x, hx, hxk⟩
    rcases List.mem_map.1 hx with ⟨p, hp, hpx⟩
    have hps := List.mem_filter.1 hp
    exact ⟨p, hps.1, by simpa using hps.2, by rw [hpx]; exact hxk⟩
  rcases hex with ⟨p, hp, hp1, hp2⟩
  rcases hex' with ⟨p', hp', hp'1, hp'2⟩
  have hnd := (keptPairs_keys_nodup metas []).1
  have heq : p = p' :=
    List.inj_on_of_nodup_map hnd hp hp' (by rw [hp2, hp'2])
  exact hss (by rw [← hp1, ← hp'1, heq])

/-- A paragraph produced by `takePara` is a sublist of its input lines. -/
theorem takePara_sublist (budget maxW : Nat) :
    ∀ (ls : List String) (sw used : Nat),
      List.Sublist (takePara budget maxW ls sw used).1 ls := by
  intro ls
  induction ls with
  | nil => intro sw used; simp [takePara]
  | cons l ls ih =>
    intro sw used
    simp only [takePara]
    by_cases h : sw + pyWordCount l ≥ budget ∨ used + pyWordCount l ≥ maxW
    · rw [if_pos h]
      exact (List.nil_sublist ls).cons₂ l
    · rw [if_neg h]
      exact (ih _ _).cons₂ l

/-- Every emitted section's paragraph is a sublist of that stage's
bucket. -/
theorem emitSections_para_sublist (B : String → List String) (maxW : Nat) :
    ∀ (stages : List String) (used : Nat),
      ∀ p ∈ (emitSections B maxW stages used).1, List.Sublist p.2 (B p.1) := by
  intro stages
  induction stages with
  | nil => intro used p hp; simp [emitSections] at hp
  | cons st rest ih =>
    intro used p hp
    simp only [emitSections] at hp
    by_cases hB : B st = []
    · rw [if_pos hB] at hp
      exact ih used p hp
    rw [if_neg hB] at hp
    by_cases hpe : (takePara (stageBudget maxW st) maxW (B st) 0 used).1 = []
    · rw [if_pos hpe] at hp
      by_cases hstop : (takePara (stageBudget maxW st) maxW (B st) 0 used).2 ≥ maxW
      · rw [if_pos hstop] at hp; simp at hp
      · rw [if_neg hstop] at hp
        simp only [List.nil_append] at hp
        exact ih _ p hp
    · rw [if_neg hpe] at hp
      by_cases hstop : (takePara (stageBudget maxW st) maxW (B st) 0 used).2 ≥ maxW
      · rw [if_pos hstop] at hp
        simp at hp
        rw [hp]
        exact takePara_sublist _ _ _ _ _
      · rw [if_neg hstop] at hp
        rcases List.mem_append.1 hp with hp | hp
        · simp at hp
          rw [hp]
          exact takePara_sublist _ _ _ _ _
        · exact ih _ p hp

/-- C4: for every sequence of matches and time budget, no cleaned summary
line occurs more than once among the lines of the Assembler's emitted
sections — deduplication is global across all stage buckets. -/
theorem summary_lines_dedup :
    ∀ (metas : List Meta) (t : Nat) (s : String),
      (allExplanationLines metas t).count s ≤ 1 := by
  intro metas t s
  have hkeysnd :
      ∀ p ∈ explanationSections metas t, ((p.2.map normalize)).Nodup := by
    intro p hp
    have hsubl := emitSections_para_sublist (assemblerSections metas)
      (t * WORDS_PER_MIN) STAGE_ORDER 0 p hp
    rw [assemblerSections_eq_bucket] at hsubl
    exact ((keptPairs_keys_nodup metas []).1.sublist
      (bucket_keys_sublist metas p.1)).sublist (hsubl.map normalize)
  have hfstnd : ((explanationSections metas t).map Prod.fst).Nodup :=
    (by decide : STAGE_ORDER.Nodup).sublist
      (emitSections_fst_sublist (assemblerSections metas) (t * WORDS_PER_MIN) STAGE_ORDER 0)
  have hpairfst : (explanationSections metas t).Pairwise (fun a b => a.1 ≠ b.1) := by
    have := hfstnd
    rw [List.Nodup, List.pairwise_map] at this
    exact this
  have hpairdis : (explanationSections metas t).Pairwise
      (fun a b => List.Disjoint (a.2.map normalize) (b.2.map normalize)) := by
    refine List.Pairwise.imp_of_mem ?_ hpairfst
    intro a b ha hb hne
    intro k hka hkb
    have hsa := emitSections_para_sublist (assemblerSections metas)
      (t * WORDS_PER_MIN) STAGE_ORDER 0 a ha
    have hsb := emitSections_para_sublist (assemblerSections metas)
      (t * WORDS_PER_MIN) STAGE_ORDER 0 b hb
    rw [assemblerSections_eq_bucket] at hsa hsb
    exact bucket_keys_disjoint metas hne k
      ((hsa.map normalize).subset hka) ((hsb.map normalize).subset hkb)
  have hnodup : ((allExplanationLines metas t).map normalize).Nodup := by
    rw [allExplanationLines, List.map_flatten, List.map_map]
    rw [List.nodup_flatten]
    constructor
    · intro l hl
      rcases List.mem_map.1 hl with ⟨p, hp, hpl⟩
      rw [← hpl]
      exact hkeysnd p hp
    · rw [List.pairwise_map]
      exact hpairdis
  calc (allExplanationLines metas t).count s
      ≤ ((allExplanationLines metas t).map normalize).count (normalize s) :=
        count_le_count_map normalize _ s
    _ ≤ 1 := List.nodup_iff_count_le_one.1 hnodup _

/-- A whitespace character splits the token count: the tokens of
`xs ++ c :: ys` are those of `xs` plus those of `ys`. -/
theorem tokCount_append_sep :
    ∀ (xs : List Char) (b : Bool) (c : Char) (ys : List Char), isPySpace c = true →
      tokCount b (xs ++ c :: ys) = tokCount b xs + tokCount false ys := by
  intro xs
  induction xs with
  | nil =>
    intro b c ys hc
    simp [tokCount, hc]
  | cons x xs ih =>
    intro b c ys hc
    by_cases hx : isPySpace x
    · simp [tokCount, hx, ih false c ys hc]
    · simp [tokCount, hx, ih true c ys hc]
      omega

/-- A list of whitespace characters has no tokens. -/
theorem tokCount_all_space :
    ∀ (l : List Char) (b : Bool), (∀ c ∈ l, isPySpace c = true) → tokCount b l = 0 := by
  intro l
  induction l with
  | nil => intro b _; rfl
  | cons c cs ih =>
    intro b h
    have hc := h c (List.mem_cons_self c cs)
    simp [tokCount, hc, ih false (fun x hx => h x (List.mem_cons_of_mem c hx))]

/-- Appending whitespace does not change the token count. -/
theorem tokCount_append_space :
    ∀ (xs sp : List Char) (b : Bool), (∀ c ∈ sp, isPySpace c = true) →
      tokCount b (xs ++ sp) = tokCount b xs := by
  intro xs sp b hs
  cases sp with
  | nil => simp
  | cons c cs =>
    have hc := hs c (List.mem_cons_self c cs)
    rw [tokCount_append_sep xs b c cs hc,
      tokCount_all_space cs false (fun x hx => hs x (List.mem_cons_of_mem c hx))]
    omega

/-- Dropping leading whitespace does not change the token count. -/
theorem tokCount_dropWhile_space :
    ∀ (l : List Char), tokCount false (l.dropWhile isPySpace) = tokCount false l := by
  intro l
  induction l with
  | nil => rfl
  | cons c cs ih =>
    by_cases hc : isPySpace c
    · rw [List.dropWhile_cons, if_pos hc, ih]
      simp [tokCount, hc]
    · rw [List.dropWhile_cons, if_neg hc]

/-- Stripping does not change the token count. -/
theorem tokCount_stripL (l : List Char) : tokCount false (stripL l) = tokCount false l := by
  rw [stripL, ← tokCount_dropWhile_space l]
  set l2 := l.dropWhile isPySpace with hl2
  have hsplit : dropTrailingSp l2 ++ (l2.reverse.takeWhile isPySpace).reverse = l2 := by
    rw [dropTrailingSp, ← List.reverse_append, List.takeWhile_append_dropWhile,
      List.reverse_reverse]
  have hsp : ∀ c ∈ (l2.reverse.takeWhile isPySpace).reverse, isPySpace c = true := by
    intro c hc
    exact List.mem_takeWhile_imp (List.mem_reverse.1 hc)
  calc tokCount false (dropTrailingSp l2)
      = tokCount false (dropTrailingSp l2 ++ (l2.reverse.takeWhile isPySpace).reverse) :=
        (tokCount_append_space _ _ false hsp).symm
    _ = tokCount false l2 := by rw [hsplit]

/-- `str.strip()` does not change the word count. -/
theorem pyWordCount_pyStrip (s : String) : pyWordCount (pyStrip s) = pyWordCount s :=
  tokCount_stripL s.data

/-- A trailing newline does not change the word count. -/
theorem pyWordCount_append_nl (s : String) : pyWordCount (s ++ "\n") = pyWordCount s := by
  show tokCount false (s ++ "\n").data = tokCount false s.data
  rw [String.data_append]
  exact tokCount_append_space s.data _ false (by intro c hc; simp at hc; simp [hc, isPySpace])

/-- The word count of a newline-joined list is the sum of the word
counts. -/
theorem pyWordCount_joinNl :
    ∀ (parts : List String), pyWordCount (joinNl parts) = (parts.map pyWordCount).sum := by
  intro parts
  induction parts with
  | nil => simp [joinNl, pyWordCount, tokCount]
  | cons p ps ih =>
    cases ps with
    | nil => simp [joinNl]
    | cons p2 ps2 =>
      show pyWordCount (p ++ "\n" ++ joinNl (p2 :: ps2)) = _
      have hdata : (p ++ "\n" ++ joinNl (p2 :: ps2)).data =
          p.data ++ '\n' :: (joinNl (p2 :: ps2)).data := by
        rw [String.data_append, String.data_append]
        simp
      show tokCount false (p ++ "\n" ++ joinNl (p2 :: ps2)).data = _
      rw [hdata, tokCount_append_sep p.data false '\n' _ (by simp [isPySpace])]
      rw [List.map_cons, List.sum_cons]
      exact congrArg (pyWordCount p + ·) ih

/-- The word count of a space-joined list is the sum of the word
counts. -/
theorem pyWordCount_joinSpace :
    ∀ (lines : List String), pyWordCount (joinSpace lines) = (lines.map pyWordCount).sum := by
  intro lines
  induction lines with
  | nil => simp [joinSpace, pyWordCount, tokCount]
  | cons p ps ih =>
    cases ps with
    | nil => simp [joinSpace]
    | cons p2 ps2 =>
      show pyWordCount (p ++ " " ++ joinSpace (p2 :: ps2)) = _
      have hdata : (p ++ " " ++ joinSpace (p2 :: ps2)).data =
          p.data ++ ' ' :: (joinSpace (p2 :: ps2)).data := by
        rw [String.data_append, String.data_append]
        simp
      show tokCount false (p ++ " " ++ joinSpace (p2 :: ps2)).data = _
      rw [hdata, tokCount_append_sep p.data false ' ' _ (by simp [isPySpace])]
      rw [List.map_cons, List.sum_cons]
      exact congrArg (pyWordCount p + ·) ih

/-- Folding a maximum distributes over append. -/
theorem foldr_max_append :
    ∀ (xs ys : List Nat), (xs ++ ys).foldr max 0 = max (xs.foldr max 0) (ys.foldr max 0) := by
  intro xs ys
  induction xs with
  | nil => simp
  | cons x xs ih =>
    simp only [List.cons_append, List.foldr_cons, ih]
    exact (Nat.max_assoc _ _ _).symm

/-- `maxLineWords` distributes over append as a maximum. -/
theorem maxLineWords_append :
    ∀ (xs ys : List String), maxLineWords (xs ++ ys) = max (maxLineWords xs) (maxLineWords ys) := by
  intro xs ys
  simp only [maxLineWords, List.map_append]
  exact foldr_max_append _ _

/-- The final word count of `takePara` is the entry count plus the words
of the paragraph it returns. -/
theorem takePara_used (budget maxW : Nat) :
    ∀ (ls : List String) (sw used : Nat),
      (takePara budget maxW ls sw used).2 =
        used + ((takePara budget maxW ls sw used).1.map pyWordCount).sum := by
  intro ls
  induction ls with
  | nil => intro sw used; simp [takePara]
  | cons l ls ih =>
    intro sw used
    simp only [takePara]
    by_cases h : sw + pyWordCount l ≥ budget ∨ used + pyWordCount l ≥ maxW
    · rw [if_pos h]; simp
    · rw [if_neg h]
      simp only [List.map_cons, List.sum_cons]
      rw [ih]
      omega

/-- If the entry count is below the budget, the final count of `takePara`
overshoots the budget by less than one line of the paragraph. -/
theorem takePara_bound (budget maxW : Nat) :
    ∀ (ls : List String) (sw used : Nat), used < maxW →
      (takePara budget maxW ls sw used).2 <
        maxW + maxLineWords (takePara budget maxW ls sw used).1 := by
  intro ls
  induction ls with
  | nil => intro sw used h; simpa [takePara, maxLineWords] using h
  | cons l ls ih =>
    intro sw used h
    simp only [takePara]
    by_cases hc : sw + pyWordCount l ≥ budget ∨ used + pyWordCount l ≥ maxW
    · rw [if_pos hc]
      show used + pyWordCount l < maxW + maxLineWords [l]
      have : maxLineWords [l] = pyWordCount l := by simp [maxLineWords]
      omega
    · rw [if_neg hc]
      have hlt : used + pyWordCount l < maxW := by
        have h2 : ¬ used + pyWordCount l ≥ maxW := fun hge => hc (Or.inr hge)
        omega
      have hrec := ih (sw + pyWordCount l) (used + pyWordCount l) hlt
      have hmax : maxLineWords (takePara budget maxW ls (sw + pyWordCount l)
          (used + pyWordCount l)).1 ≤
          maxLineWords (l :: (takePara budget maxW ls (sw + pyWordCount l)
            (used + pyWordCount l)).1) := by
        simp [maxLineWords]
      show (takePara budget maxW ls (sw + pyWordCount l) (used + pyWordCount l)).2 <
        maxW + maxLineWords (l :: (takePara budget maxW ls (sw + pyWordCount l)
          (used + pyWordCount l)).1)
      omega

/-- The final word count of the emission loop is the entry count plus the
words of all emitted lines. -/
theorem emitSections_used (B : String → List String) (maxW : Nat) :
    ∀ (stages : List String) (used : Nat),
      (emitSections B maxW stages used).2 =
        used + ((((emitSections B maxW stages used).1.map Prod.snd).flatten).map pyWordCount).sum := by
  intro stages
  induction stages with
  | nil => intro used; simp [emitSections]
  | cons st rest ih =>
    intro used
    simp only [emitSections]
    by_cases hB : B st = []
    · rw [if_pos hB]; exact ih used
    rw [if_neg hB]
    have h1 := takePara_used (stageBudget maxW st) maxW (B st) 0 used
    by_cases hpe : (takePara (stageBudget maxW st) maxW (B st) 0 used).1 = []
    · simp only [if_pos hpe]
      rw [hpe] at h1
      simp only [List.map_nil, List.sum_nil] at h1
      by_cases hstop : (takePara (stageBudget maxW st) maxW (B st) 0 used).2 ≥ maxW
      · rw [if_pos hstop]
        simp [h1]
      · rw [if_neg hstop]
        have h2 := ih (takePara (stageBudget maxW st) maxW (B st) 0 used).2
        simp only [List.nil_append]
        rw [h2, h1]
        omega
    · simp only [if_neg hpe]
      by_cases hstop : (takePara (stageBudget maxW st) maxW (B st) 0 used).2 ≥ maxW
      · rw [if_pos hstop]
        simp [h1]
      · rw [if_neg hstop]
        have h2 := ih (takePara (stageBudget maxW st) maxW (B st) 0 used).2
        have hgoal : ((([(st, (takePara (stageBudget maxW st) maxW (B st) 0 used).1)] ++
            (emitSections B maxW rest
              (takePara (stageBudget maxW st) maxW (B st) 0 used).2).1).map Prod.snd).flatten) =
            (takePara (stageBudget maxW st) maxW (B st) 0 used).1 ++
              (((emitSections B maxW rest
                (takePara (stageBudget maxW st) maxW (B st) 0 used).2).1.map Prod.snd)).flatten := by
          simp
        show (emitSections B maxW rest (takePara (stageBudget maxW st) maxW (B st) 0 used).2).2 =
          used + (((([(st, (takePara (stageBudget maxW st) maxW (B st) 0 used).1)] ++
            (emitSections B maxW rest
              (takePara (stageBudget maxW st) maxW (B st) 0 used).2).1).map Prod.snd).flatten).map
              pyWordCount).sum
        rw [hgoal, List.map_append, List.sum_append]
        omega

/-- When the emission loop starts below the global budget, it finishes
below the budget plus the largest emitted line. -/
theorem emitSections_bound (B : String → List String) (maxW : Nat) :
    ∀ (stages : List String) (used : Nat), used < maxW →
      (emitSections B maxW stages used).2 <
        maxW + maxLineWords (((emitSections B maxW stages used).1.map Prod.snd).flatten) := by
  intro stages
  induction stages with
  | nil => intro used h; simpa [emitSections, maxLineWords] using h
  | cons st rest ih =>
    intro used h
    simp only [emitSections]
    by_cases hB : B st = []
    · rw [if_pos hB]; exact ih used h
    rw [if_neg hB]
    by_cases hpe : (takePara (stageBudget maxW st) maxW (B st) 0 used).1 = []
    · simp only [if_pos hpe]
      by_cases hstop : (takePara (stageBudget maxW st) maxW (B st) 0 used).2 ≥ maxW
      · rw [if_pos hstop]
        have h1 := takePara_used (stageBudget maxW st) maxW (B st) 0 used
        rw [hpe] at h1
        simp only [List.map_nil, List.sum_nil] at h1
        omega
      · rw [if_neg hstop]
        simp only [List.nil_append]
        exact ih _ (by omega)
    · simp only [if_neg hpe]
      by_cases hstop : (takePara (stageBudget maxW st) maxW (B st) 0 used).2 ≥ maxW
      · rw [if_pos hstop]
        have h1 := takePara_bound (stageBudget maxW st) maxW (B st) 0 used h
        simpa using h1
      · rw [if_neg hstop]
        have h2 := ih (takePara (stageBudget maxW st) maxW (B st) 0 used).2 (by omega)
        have hmax : maxLineWords
            ((((emitSections B maxW rest
              (takePara (stageBudget maxW st) maxW (B st) 0 used).2).1.map Prod.snd)).flatten) ≤
            maxLineWords ((takePara (stageBudget maxW st) maxW (B st) 0 used).1 ++
              (((emitSections B maxW rest
                (takePara (stageBudget maxW st) maxW (B st) 0 used).2).1.map Prod.snd)).flatten) := by
          rw [maxLineWords_append]
          exact Nat.le_max_right _ _
        have hgoal : ((([(st, (takePara (stageBudget maxW st) maxW (B st) 0 used).1)] ++
            (emitSections B maxW rest
              (takePara (stageBudget maxW st) maxW (B st) 0 used).2).1).map Prod.snd).flatten) =
            (takePara (stageBudget maxW st) maxW (B st) 0 used).1 ++
              (((emitSections B maxW rest
                (takePara (stageBudget maxW st) maxW (B st) 0 used).2).1.map Prod.snd)).flatten := by
          simp
        show (emitSections B maxW rest (takePara (stageBudget maxW st) maxW (B st) 0 used).2).2 <
          maxW + maxLineWords ((([(st, (takePara (stageBudget maxW st) maxW (B st) 0 used).1)] ++
            (emitSections B maxW rest
              (takePara (stageBudget maxW st) maxW (B st) 0 used).2).1).map Prod.snd).flatten)
        rw [hgoal]
        omega

/-- The words of the rendered parts: header words plus line words. -/
theorem renderParts_words :
    ∀ (secs : List (String × List String)),
      ((renderParts secs).map pyWordCount).sum =
        ((secs.map Prod.fst).map headerWords).sum +
        (((secs.map Prod.snd).flatten).map pyWordCount).sum := by
  intro secs
  induction secs with
  | nil => simp [renderParts]
  | cons p ps ih =>
    simp only [renderParts, List.map_cons, List.flatten_cons, List.map_append,
      List.sum_append, List.sum_cons, List.map_nil, List.sum_nil] at ih ⊢
    have hpp : pyWordCount (joinSpace p.2 ++ "\n") = (p.2.map pyWordCount).sum := by
      rw [pyWordCount_append_nl, pyWordCount_joinSpace]
    have hhd : pyWordCount ("\n" ++ STAGE_TITLES p.1 ++ ":\n") = headerWords p.1 := rfl
    rw [hpp, hhd]
    omega

/-- A sublist of naturals has a smaller sum. -/
theorem sum_le_sum_of_sublist :
    ∀ {l₁ l₂ : List Nat}, List.Sublist l₁ l₂ → l₁.sum ≤ l₂.sum := by
  intro l₁ l₂ h
  induction h with
  | slnil => simp
  | cons a h ih => simp only [List.sum_cons]; omega
  | cons₂ a h ih => simp only [List.sum_cons]; omega

/-- The header words of any emitted stage selection total at most 14 (the
word count of all nine stage headers together). -/
theorem headerWords_sum_le (stages : List String)
    (h : List.Sublist stages STAGE_ORDER) : (stages.map headerWords).sum ≤ 14 := by
  have h14 : (STAGE_ORDER.map headerWords).sum = 14 := by decide
  have := sum_le_sum_of_sublist (h.map headerWords)
  omega

/-- C3 (amended): for `time_minutes > 0`, whenever at least one stage
section is emitted, the total word count of the Assembler's output is at
most `time_minutes * 120` plus the largest emitted line's word count
(the single overshoot) plus the word count of the emitted stage headers
(at most 14); the headers are the part the original bound omitted.  (With
no sections the output is the fallback sentence about the query.) -/
theorem output_words_bounded :
    ∀ (q : String) (t : Nat) (metas : List Meta), 0 < t →
      explanationSections metas t ≠ [] →
      pyWordCount (get_explanation q t metas) ≤
        t * WORDS_PER_MIN + maxLineWords (allExplanationLines metas t) + 14 := by
  intro q t metas ht hne
  have hout : renderParts (explanationSections metas t) ≠ [] := by
    cases hsec : explanationSections metas t with
    | nil => exact absurd hsec hne
    | cons p rest => simp [renderParts]
  simp only [get_explanation]
  rw [if_neg hout, pyWordCount_pyStrip, pyWordCount_joinNl, renderParts_words]
  have hheads : (((explanationSections metas t).map Prod.fst).map headerWords).sum ≤ 14 :=
    headerWords_sum_le _ (emitSections_fst_sublist (assemblerSections metas)
      (t * WORDS_PER_MIN) STAGE_ORDER 0)
  have hmaxW : 0 < t * WORDS_PER_MIN := Nat.mul_pos ht (by norm_num [WORDS_PER_MIN])
  have hbody := emitSections_bound (assemblerSections metas) (t * WORDS_PER_MIN)
    STAGE_ORDER 0 hmaxW
  have hused := emitSections_used (assemblerSections metas) (t * WORDS_PER_MIN)
    STAGE_ORDER 0
  have hbody2 :
      ((((explanationSections metas t).map Prod.snd).flatten).map pyWordCount).sum <
        t * WORDS_PER_MIN + maxLineWords (allExplanationLines metas t) := by
    have hall : allExplanationLines metas t =
        (((emitSections (assemblerSections metas) (t * WORDS_PER_MIN) STAGE_ORDER 0).1.map
          Prod.snd)).flatten := rfl
    rw [hall]
    show ((((emitSections (assemblerSections metas) (t * WORDS_PER_MIN) STAGE_ORDER 0).1.map
      Prod.snd)).flatten.map pyWordCount).sum < _
    omega
  omega

/-- C3 witness for the amended bound: a single definition match at one
minute. -/
theorem output_words_bounded_witness :
    (0 < 1) ∧ explanationSections [mkMeta "definition" "ohms law"] 1 ≠ [] ∧
    pyWordCount (get_explanation "led" 1 [mkMeta "definition" "ohms law"]) ≤
      1 * WORDS_PER_MIN + maxLineWords (allExplanationLines [mkMeta "definition" "ohms law"] 1) + 14 :=
  ⟨by decide, by decide,
   output_words_bounded "led" 1 [mkMeta "definition" "ohms law"] (by decide) (by decide)⟩

end Recommender
